import Mathlib

/-
Shallow embedding of memoryman.py: five classical memory-management
engines (fixed partitioning, unequal partitioning, dynamic allocation
with coalescing, binary buddy allocator, paging).  Python lists become
Lean lists, Python dicts become insertion-ordered association lists
(key lookup walks the list; updating a present key keeps its position;
a fresh key is appended at the end, matching CPython dict semantics).
Machine integers are Nat (the program only handles non-negative sizes
and addresses).  Loops with early exit become structural recursions;
the two while loops of the buddy engine take an explicit fuel argument
that is provably larger than the number of iterations they can make.
-/

/-- Allocation strategies accepted by the unequal and dynamic engines.
The source dispatches on the strings first_fit, best_fit, worst_fit;
any other string means no placement, which the CLI layer rules out. -/
inductive Strategy
| first_fit
| best_fit
| worst_fit
deriving DecidableEq

/-! ## FixedSizedPartitioning -/

structure FixedSizedPartitioning where
  memory_size : Nat
  partition_size : Nat
  partitions : List (Option Nat)
deriving DecidableEq

/-- Constructor: partitions = [None] * (memory_size // partition_size). -/
def FixedSizedPartitioning.init (memory_size partition_size : Nat) : FixedSizedPartitioning :=
  ⟨memory_size, partition_size, List.replicate (memory_size / partition_size) none⟩

/-- all(p is None for p in self.partitions[i:i+partitions_needed]);
a Python slice past the end truncates, as take/drop do. -/
def windowFree (parts : List (Option Nat)) (i needed : Nat) : Bool :=
  ((parts.drop i).take needed).all (fun p => p == none)

/-- for j in range(partitions_needed): self.partitions[i + j] = process_id. -/
def tagWindow (parts : List (Option Nat)) (i needed pid : Nat) : List (Option Nat) :=
  (List.range needed).foldl (fun ps j => ps.set (i + j) (some pid)) parts

/-- The scan "for i in range(len(self.partitions) - partitions_needed + 1)"
returning the first i whose window is all free.  The bound is written
len + 1 - needed so that truncated Nat subtraction matches the emptiness
of the Python range when needed exceeds len + 1. -/
def scanWin (parts : List (Option Nat)) (needed : Nat) : Nat → Nat → Option Nat
| _, 0 => none
| i, fuel + 1 => if windowFree parts i needed then some i else scanWin parts needed (i + 1) fuel

def FixedSizedPartitioning.allocate (st : FixedSizedPartitioning) (pid size : Nat) :
    Bool × FixedSizedPartitioning :=
  let needed := (size + st.partition_size - 1) / st.partition_size
  match scanWin st.partitions needed 0 (st.partitions.length + 1 - needed) with
  | some i => (true, { st with partitions := tagWindow st.partitions i needed pid })
  | none => (false, st)

def FixedSizedPartitioning.deallocate (st : FixedSizedPartitioning) (pid : Nat) :
    FixedSizedPartitioning :=
  { st with partitions := st.partitions.map (fun p => if p = some pid then none else p) }

/-! ## UnequalSizedPartitioning -/

structure UnequalSizedPartitioning where
  partitions : List Nat
  allocated : List (Option Nat)
deriving DecidableEq

def UnequalSizedPartitioning.init (parts : List Nat) : UnequalSizedPartitioning :=
  ⟨parts, List.replicate parts.length none⟩

/-- The first_fit scan of _find_partition: first index i with
allocated[i] is None and partitions[i] >= size.  The source iterates
i over range(len(partitions)) and reads allocated[i]; here the two
parallel lists are walked together (they have equal length in every
state the class builds). -/
def firstFitP : List Nat → List (Option Nat) → Nat → Nat → Option Nat
| p :: ps, a :: al, size, i =>
    if a = none ∧ size ≤ p then some i else firstFitP ps al size (i + 1)
| _, _, _, _ => none

/-- best_size is None or cmp(candidate size, best size): the update
test shared by the best_fit and worst_fit scans.  The accumulator
holds (best_index, best_size). -/
def betterThan (cmp : Nat → Nat → Bool) (best : Option (Nat × Nat)) (p : Nat) : Bool :=
  match best with
  | none => true
  | some b => cmp p b.2

/-- The best_fit and worst_fit scans of _find_partition, which differ
only in the comparison against the best size so far (strict < for
best_fit, strict > for worst_fit); cmp receives the candidate size
first and the recorded best size second. -/
def scanPartGo (cmp : Nat → Nat → Bool) :
    List Nat → List (Option Nat) → Nat → Nat → Option (Nat × Nat) → Option (Nat × Nat)
| p :: ps, a :: al, size, i, best =>
    if a = none ∧ size ≤ p ∧ betterThan cmp best p = true then
      scanPartGo cmp ps al size (i + 1) (some (i, p))
    else scanPartGo cmp ps al size (i + 1) best
| _, _, _, _, best => best

def UnequalSizedPartitioning.findPartition (st : UnequalSizedPartitioning) (size : Nat)
    (strategy : Strategy) : Option Nat :=
  match strategy with
  | .first_fit => firstFitP st.partitions st.allocated size 0
  | .best_fit => (scanPartGo (fun p b => p < b) st.partitions st.allocated size 0 none).map (·.1)
  | .worst_fit => (scanPartGo (fun p b => b < p) st.partitions st.allocated size 0 none).map (·.1)

def UnequalSizedPartitioning.allocate (st : UnequalSizedPartitioning) (pid size : Nat)
    (strategy : Strategy) : Bool × UnequalSizedPartitioning :=
  match st.findPartition size strategy with
  | some index => (true, { st with allocated := st.allocated.set index (some pid) })
  | none => (false, st)

def UnequalSizedPartitioning.deallocate (st : UnequalSizedPartitioning) (pid : Nat) :
    UnequalSizedPartitioning :=
  { st with allocated := st.allocated.map (fun a => if a = some pid then none else a) }

/-! ## DynamicMemoryAllocation -/

/-- A block (start, size, process_id); process_id None means free. -/
structure Block where
  start : Nat
  size : Nat
  pid : Option Nat
deriving DecidableEq

structure DynamicMemoryAllocation where
  memory_size : Nat
  memory : List Block
deriving DecidableEq

def DynamicMemoryAllocation.init (memory_size : Nat) : DynamicMemoryAllocation :=
  ⟨memory_size, [⟨0, memory_size, none⟩]⟩

/-- Python sorts the block tuples lexicographically.  In every state
this engine maintains, block starts are pairwise distinct (the tiling
invariant proved below), so the comparison never reaches the third
component (where Python would fault comparing None with an int); on
such lists sorting lexicographically by (start, size) coincides. -/
def blockLE (b c : Block) : Prop := b.start < c.start ∨ (b.start = c.start ∧ b.size ≤ c.size)

instance : DecidableRel blockLE := fun b c => by unfold blockLE; exact inferInstance

instance : IsTotal Block blockLE := by
  constructor
  intro a b
  unfold blockLE
  rcases Nat.lt_trichotomy a.start b.start with h | h | h
  · exact Or.inl (Or.inl h)
  · rcases Nat.le_total a.size b.size with h2 | h2
    · exact Or.inl (Or.inr ⟨h, h2⟩)
    · exact Or.inr (Or.inr ⟨h.symm, h2⟩)
  · exact Or.inr (Or.inl h)

instance : IsTrans Block blockLE := by
  constructor
  intro a b c hab hbc
  unfold blockLE at *
  rcases hab with h1 | ⟨e1, s1⟩
  · rcases hbc with h2 | ⟨e2, _⟩
    · exact Or.inl (Nat.lt_trans h1 h2)
    · exact Or.inl (e2 ▸ h1)
  · rcases hbc with h2 | ⟨e2, s2⟩
    · exact Or.inl (e1 ▸ h2)
    · exact Or.inr ⟨e1.trans e2, Nat.le_trans s1 s2⟩

/-- Strict ordering of blocks by start address; on the lists the
dynamic engine maintains, starts are pairwise distinct, so a list is
determined by being sorted under blockLT among its permutations. -/
def blockLT (b c : Block) : Prop := b.start < c.start

instance : IsAntisymm Block blockLT :=
  ⟨fun _ _ h h2 => absurd h2 (Nat.lt_asymm h)⟩

/-- self.memory.sort() respectively sorted(self.memory). -/
def sortBlocks (l : List Block) : List Block := List.insertionSort blockLE l

/-- first_fit branch of _find_block. -/
def firstFitB : List Block → Nat → Nat → Option Nat
| [], _, _ => none
| b :: l, size, i =>
    if b.pid = none ∧ size ≤ b.size then some i else firstFitB l size (i + 1)

/-- best_fit and worst_fit branches of _find_block; the accumulator
holds (best_index, best_size); cmp receives the candidate block size
first and the recorded best size second. -/
def scanBlockGo (cmp : Nat → Nat → Bool) : List Block → Nat → Nat → Option (Nat × Nat) → Option Nat
| [], _, _, best => best.map (·.1)
| b :: l, size, i, best =>
    if b.pid = none ∧ size ≤ b.size ∧ betterThan cmp best b.size = true then
      scanBlockGo cmp l size (i + 1) (some (i, b.size))
    else scanBlockGo cmp l size (i + 1) best

def DynamicMemoryAllocation.findBlock (st : DynamicMemoryAllocation) (size : Nat)
    (strategy : Strategy) : Option Nat :=
  match strategy with
  | .first_fit => firstFitB st.memory size 0
  | .best_fit => scanBlockGo (fun v b => v < b) st.memory size 0 none
  | .worst_fit => scanBlockGo (fun v b => b < v) st.memory size 0 none

def DynamicMemoryAllocation.allocate (st : DynamicMemoryAllocation) (pid size : Nat)
    (strategy : Strategy) : Bool × DynamicMemoryAllocation :=
  match st.findBlock size strategy with
  | none => (false, st)
  | some index =>
    match st.memory[index]? with
    | none => (false, st)
    | some b =>
      let m1 := st.memory.set index ⟨b.start + size, b.size - size, none⟩
      let m2 := if b.size - size = 0 then m1.eraseIdx index else m1
      (true, { st with memory := sortBlocks (m2 ++ [⟨b.start, size, some pid⟩]) })

/-- The merge sweep of merge_free_blocks; the accumulator is the
reversed merged_memory list, so its head is the last appended block
(the one the source inspects and pops). -/
def mergeGo : List Block → List Block → List Block
| acc, [] => acc.reverse
| a :: acc, b :: rest =>
    if a.pid = none ∧ b.pid = none then mergeGo (⟨a.start, a.size + b.size, none⟩ :: acc) rest
    else mergeGo (b :: a :: acc) rest
| [], b :: rest => mergeGo [b] rest

def DynamicMemoryAllocation.merge_free_blocks (st : DynamicMemoryAllocation) :
    DynamicMemoryAllocation :=
  { st with memory := mergeGo [] (sortBlocks st.memory) }

def DynamicMemoryAllocation.deallocate (st : DynamicMemoryAllocation) (pid : Nat) :
    DynamicMemoryAllocation :=
  DynamicMemoryAllocation.merge_free_blocks
    { st with memory := st.memory.map (fun b => if b.pid = some pid then ⟨b.start, b.size, none⟩ else b) }

/-! ## BuddySystem -/

structure BuddySystem where
  size : Nat
  free_blocks : List (Nat × List Nat)
deriving DecidableEq

def BuddySystem.init (size : Nat) : BuddySystem := ⟨size, [(size, [0])]⟩

/-- Fueled bit length: bitLenGo fuel n computes the bit length of n
whenever n ≤ fuel (each step halves n, so fuel = n is enough). -/
def bitLenGo : Nat → Nat → Nat
| 0, _ => 0
| fuel + 1, n => if n = 0 then 0 else bitLenGo fuel (n / 2) + 1

/-- Python int.bit_length for non-negative arguments. -/
def bitLen (n : Nat) : Nat := bitLenGo n n

/-- 1 << (x - 1).bit_length(); on Nat the subtraction truncates at 0,
so nextPow2 0 = 1 (Python raises this case only for x = 0, which no
caller of the spec reaches: the spec defines it for x ≥ 1). -/
def nextPow2 (x : Nat) : Nat := 1 <<< bitLen (x - 1)

/-- self.free_blocks[k] on a present key (dict lookup). -/
def dictGet : List (Nat × List Nat) → Nat → Option (List Nat)
| [], _ => none
| e :: rest, k => if e.1 = k then some e.2 else dictGet rest k

/-- self.free_blocks.get(k, []). -/
def dictGetD (fb : List (Nat × List Nat)) (k : Nat) : List Nat := (dictGet fb k).getD []

/-- In-place replacement of the bucket of a present key (the key keeps
its position, as a CPython dict does). -/
def dictSet : List (Nat × List Nat) → Nat → List Nat → List (Nat × List Nat)
| [], k, v => [(k, v)]
| e :: rest, k, v => if e.1 = k then (k, v) :: rest else e :: dictSet rest k v

/-- del self.free_blocks[k]. -/
def dictDelete : List (Nat × List Nat) → Nat → List (Nat × List Nat)
| [], _ => []
| e :: rest, k => if e.1 = k then rest else e :: dictDelete rest k

/-- self.free_blocks.setdefault(k, []).append(v): a present key keeps
its position and gets v appended to its bucket; an absent key is
appended at the end of the dict with bucket [v]. -/
def bucketAppend : List (Nat × List Nat) → Nat → Nat → List (Nat × List Nat)
| [], k, v => [(k, [v])]
| e :: rest, k, v => if e.1 = k then (k, e.2 ++ [v]) :: rest else e :: bucketAppend rest k v

/-- self.free_blocks[k].remove(v): removes the first occurrence of v
from the bucket of k (list.remove semantics); the key stays even when
its bucket becomes empty. -/
def bucketRemove : List (Nat × List Nat) → Nat → Nat → List (Nat × List Nat)
| [], _, _ => []
| e :: rest, k, v => if e.1 = k then (k, e.2.erase v) :: rest else e :: bucketRemove rest k v

/-- The split loop of allocate: while current_size > size, halve
current_size and file the upper half as free.  The fuel only needs to
exceed the number of halvings, which is at most the starting
current_size. -/
def splitGo : Nat → List (Nat × List Nat) → Nat → Nat → Nat → List (Nat × List Nat)
| 0, fb, _, _, _ => fb
| fuel + 1, fb, current, size, address =>
    if size < current then
      splitGo fuel (bucketAppend fb (current / 2) (address + current / 2)) (current / 2) size address
    else fb

/-- The bucket scan of allocate over the ascending key list: take the
first key that is at least the rounded size and has a non-empty
bucket, pop its first address, drop the key if its bucket emptied,
then run the split loop. -/
def allocGo (st : BuddySystem) (size : Nat) : List Nat → Option Nat × BuddySystem
| [] => (none, st)
| current :: rest =>
    match dictGet st.free_blocks current with
    | some (address :: others) =>
      if size ≤ current then
        let fb1 := if others = [] then dictDelete st.free_blocks current
                   else dictSet st.free_blocks current others
        (some address, { st with free_blocks := splitGo current fb1 current size address })
      else allocGo st size rest
    | _ => allocGo st size rest

def BuddySystem.allocate (st : BuddySystem) (_pid size : Nat) : Option Nat × BuddySystem :=
  allocGo st (nextPow2 size) (List.insertionSort (fun a b => a ≤ b) (st.free_blocks.map (·.1)))

/-- The merge loop of deallocate: while size ≤ total, either absorb a
present buddy and double, or file the address and stop; if size grows
past total the loop ends without filing anything.  For size ≥ 1 the
iteration count is below total / size + 1, so fuel total + 1 is
enough; fuel can only run out on the size = 0 call that no caller
makes (Python would loop forever there). -/
def deallocGo (total : Nat) : Nat → List (Nat × List Nat) → Nat → Nat → List (Nat × List Nat)
| 0, fb, _, _ => fb
| fuel + 1, fb, address, size =>
    if size ≤ total then
      if address ^^^ size ∈ dictGetD fb size then
        deallocGo total fuel (bucketRemove fb size (address ^^^ size))
          (min address (address ^^^ size)) (size * 2)
      else bucketAppend fb size address
    else fb

/-- The merge loop entered at an arbitrary current size (deallocate is
this at the rounded request size). -/
def BuddySystem.deallocFrom (st : BuddySystem) (address currentSize : Nat) : BuddySystem :=
  { st with free_blocks := deallocGo st.size (st.size + 1) st.free_blocks address currentSize }

def BuddySystem.deallocate (st : BuddySystem) (address size : Nat) : BuddySystem :=
  st.deallocFrom address (nextPow2 size)

/-! ## Paging -/

structure Paging where
  memory_size : Nat
  page_size : Nat
  frames : Nat
  page_table : List ((Nat × Nat) × Nat)
deriving DecidableEq

def Paging.init (memory_size page_size : Nat) : Paging :=
  ⟨memory_size, page_size, memory_size / page_size, []⟩

/-- self.page_table.values(). -/
def ptValues (pt : List ((Nat × Nat) × Nat)) : List Nat := pt.map (·.2)

/-- The frame-collecting loop of Paging.allocate: walk candidate
frames in ascending order, append those not currently used as a
value, and break as soon as needed frames are collected (the break
test runs after the append, so needed = 0 collects every free frame,
exactly as the source does). -/
def collectGo (vals : List Nat) : List Nat → Nat → List Nat → List Nat
| acc, _, [] => acc
| acc, needed, f :: rest =>
    if f ∈ vals then collectGo vals acc needed rest
    else if (acc ++ [f]).length = needed then acc ++ [f]
    else collectGo vals (acc ++ [f]) needed rest

/-- self.page_table[(process_id, page)] = frame: a present key keeps
its position and gets the new value, an absent key is appended. -/
def dictInsertP : List ((Nat × Nat) × Nat) → Nat × Nat → Nat → List ((Nat × Nat) × Nat)
| [], k, v => [(k, v)]
| e :: rest, k, v => if e.1 = k then (k, v) :: rest else e :: dictInsertP rest k v

/-- for page in range(pages_needed): page_table[(pid, page)] = frames[page],
presented as a fold over the (page, frame) pairs. -/
def writesP (pid : Nat) : List ((Nat × Nat) × Nat) → List (Nat × Nat) → List ((Nat × Nat) × Nat)
| pt, [] => pt
| pt, (page, frame) :: rest => writesP pid (dictInsertP pt (pid, page) frame) rest

def Paging.allocate (st : Paging) (pid process_size : Nat) : Bool × Paging :=
  let pages_needed := (process_size + st.page_size - 1) / st.page_size
  let allocated_frames := collectGo (ptValues st.page_table) [] pages_needed (List.range st.frames)
  if allocated_frames.length < pages_needed then (false, st)
  else (true, { st with
    page_table := writesP pid st.page_table ((List.range pages_needed).zip allocated_frames) })

def Paging.deallocate (st : Paging) (pid : Nat) : Paging :=
  { st with page_table := st.page_table.filter (fun e => ! (e.1.1 == pid)) }

/-! ## Operation sequences -/

inductive POp
| alloc (pid process_size : Nat)
| dealloc (pid : Nat)

def runP : List POp → Paging → Paging
| [], st => st
| POp.alloc pid sz :: rest, st => runP rest (st.allocate pid sz).2
| POp.dealloc pid :: rest, st => runP rest (st.deallocate pid)

inductive DynOp
| alloc (pid size : Nat) (strategy : Strategy)
| dealloc (pid : Nat)

/-- Every allocation in the list requests a positive size. -/
def posOps : List DynOp → Bool
| [] => true
| DynOp.alloc _ size _ :: rest => decide (0 < size) && posOps rest
| DynOp.dealloc _ :: rest => posOps rest

def runD : List DynOp → DynamicMemoryAllocation → DynamicMemoryAllocation
| [], st => st
| DynOp.alloc pid size strat :: rest, st => runD rest (st.allocate pid size strat).2
| DynOp.dealloc pid :: rest, st => runD rest (st.deallocate pid)

/-! ## Specification-side predicates and concrete inputs -/

/-- The blocks tile the address range from a up to total: each block
starts where the previous one ended, beginning at a and ending exactly
at total. -/
def TilesFrom (total : Nat) : Nat → List Block → Prop
| a, [] => a = total
| a, b :: l => b.start = a ∧ TilesFrom total (a + b.size) l

/-- Tiling with positive block sizes: the invariant the dynamic engine
maintains whenever every allocate call requested a positive size. -/
def TilesPos (total : Nat) : Nat → List Block → Prop
| a, [] => a = total
| a, b :: l => b.start = a ∧ 0 < b.size ∧ TilesPos total (a + b.size) l

/-- Adjacent blocks are never both free (full coalescing). -/
def notBothFree (a b : Block) : Prop := ¬ (a.pid = none ∧ b.pid = none)

/-- Sum of the block sizes of a list. -/
def sizeSum (l : List Block) : Nat := (l.map Block.size).sum

/-- States of the dynamic engine reachable from a fresh instance by
allocate calls with positive requested sizes and deallocate calls. -/
def DynReachable (st : DynamicMemoryAllocation) : Prop :=
  ∃ ms ops, posOps ops = true ∧ st = runD ops (DynamicMemoryAllocation.init ms)

/-- The five-call scenario of the coalescing test: three allocations
filling memory, then freeing processes 1 and 2. -/
def dynOps1 : List DynOp :=
  [DynOp.alloc 1 30 Strategy.first_fit, DynOp.alloc 2 30 Strategy.first_fit,
   DynOp.alloc 3 40 Strategy.first_fit, DynOp.dealloc 1, DynOp.dealloc 2]

/-- The members of l that are not values of the page table. -/
def filterFree (vals l : List Nat) : List Nat := l.filter (fun f => decide (f ∉ vals))

/-- The unassigned frames of [0, totalFrames), in ascending order. -/
def freeFrames (st : Paging) : List Nat :=
  filterFree (ptValues st.page_table) (List.range st.frames)

/-- Size of partition i, defaulting to 0 past the end. -/
def partSizeD (st : UnequalSizedPartitioning) (i : Nat) : Nat := (st.partitions[i]?).getD 0

/-- Partition i exists, is free, and is large enough for the request. -/
def Ucand (st : UnequalSizedPartitioning) (size i : Nat) : Prop :=
  i < st.partitions.length ∧ st.allocated[i]? = some none ∧ size ≤ partSizeD st i

instance (st : UnequalSizedPartitioning) (size i : Nat) : Decidable (Ucand st size i) := by
  unfold Ucand
  exact inferInstance

/-- A window of needed consecutive free partitions starts at index i. -/
def freeWindowAt (parts : List (Option Nat)) (needed i : Nat) : Prop :=
  i + needed ≤ parts.length ∧ windowFree parts i needed = true

/-- The blocks tile the address range from a up to c with positive
sizes: each block starts where the previous one ended. -/
def Seg : Nat → Nat → List Block → Prop
| a, c, [] => a = c
| a, c, b :: l => b.start = a ∧ 0 < b.size ∧ Seg (a + b.size) c l

/-- Seg for a reversed accumulator: the blocks of racc.reverse tile
the range from x up to y. -/
def RevSeg (x : Nat) : Nat → List Block → Prop
| y, [] => x = y
| y, c :: racc => c.start + c.size = y ∧ 0 < c.size ∧ RevSeg x c.start racc

/-- The invariant of the dynamic engine under positive-size requests:
for positive memory the block list tiles memory with positive sizes
and no two adjacent blocks are free; a zero-size instance keeps its
single degenerate block forever. -/
def DynInv (st : DynamicMemoryAllocation) : Prop :=
  (0 < st.memory_size ∧ Seg 0 st.memory_size st.memory ∧ List.Chain' notBothFree st.memory)
  ∨ (st.memory_size = 0 ∧ st.memory = [⟨0, 0, none⟩])

/-! ## Lemmas: the frame-collecting loop of Paging.allocate -/

theorem collectGo_zero (vals : List Nat) : ∀ (l acc : List Nat),
    collectGo vals acc 0 l = acc ++ filterFree vals l := by
  intro l
  induction l with
  | nil => intro acc; simp [collectGo, filterFree]
  | cons f rest ih =>
    intro acc
    by_cases h : f ∈ vals
    · simp [collectGo, h, ih, filterFree, List.filter_cons]
    · have hlen : ¬ (acc ++ [f]).length = 0 := by simp
      simp only [collectGo, if_neg h, if_pos, hlen, if_neg hlen, ih]
      simp [filterFree, List.filter_cons, h]

theorem collectGo_pos (vals : List Nat) : ∀ (l acc : List Nat) (needed : Nat),
    acc.length < needed →
    collectGo vals acc needed l = acc ++ (filterFree vals l).take (needed - acc.length) := by
  intro l
  induction l with
  | nil => intro acc needed _; simp [collectGo, filterFree]
  | cons f rest ih =>
    intro acc needed hlt
    by_cases h : f ∈ vals
    · rw [collectGo, if_pos h, ih acc needed hlt]
      simp [filterFree, List.filter_cons, h]
    · by_cases h2 : (acc ++ [f]).length = needed
      · rw [collectGo, if_neg h, if_pos h2]
        have hn : needed - acc.length = 1 := by
          simp only [List.length_append, List.length_cons, List.length_nil] at h2
          omega
        simp [filterFree, List.filter_cons, h, hn]
      · rw [collectGo, if_neg h, if_neg h2]
        have hlt' : (acc ++ [f]).length < needed := by
          simp only [List.length_append, List.length_cons, List.length_nil] at h2 ⊢
          omega
        rw [ih (acc ++ [f]) needed hlt']
        have hn : needed - acc.length = (needed - (acc ++ [f]).length) + 1 := by
          simp only [List.length_append, List.length_cons, List.length_nil]
          omega
        simp [filterFree, List.filter_cons, h, hn, List.take_succ_cons]

/-- Paging.allocate in closed form: it fails, leaving the page table
untouched, exactly when fewer free frames exist than pages are needed;
otherwise it writes pages 0..n-1 of pid to the first n free frames in
ascending frame order. -/
theorem paging_allocate_eq (st : Paging) (pid psz : Nat) :
    st.allocate pid psz =
      (if (freeFrames st).length < (psz + st.page_size - 1) / st.page_size then (false, st)
       else (true, { st with page_table := (writesP pid st.page_table
         ((List.range ((psz + st.page_size - 1) / st.page_size)).zip
           ((freeFrames st).take ((psz + st.page_size - 1) / st.page_size)))) })) := by
  unfold Paging.allocate
  dsimp only
  generalize (psz + st.page_size - 1) / st.page_size = n
  cases n with
  | zero =>
    rw [collectGo_zero]
    simp [freeFrames, writesP]
  | succ m =>
    rw [collectGo_pos (ptValues st.page_table) (List.range st.frames) [] (m + 1) (by simp)]
    simp only [List.nil_append, Nat.sub_zero, List.length_nil]
    have hl : ((filterFree (ptValues st.page_table) (List.range st.frames)).take (m + 1)).length
        = min (m + 1) (filterFree (ptValues st.page_table) (List.range st.frames)).length := by
      simp
    by_cases h : (freeFrames st).length < m + 1
    · rw [if_pos, if_pos h]
      rw [hl]
      simp only [freeFrames] at h
      omega
    · rw [if_neg, if_neg h]
      · rfl
      · rw [hl]
        simp only [freeFrames] at h
        omega

/-! ## Lemmas: no frame is mapped twice (Paging) -/

theorem dictInsertP_values_sub : ∀ (pt : List ((Nat × Nat) × Nat)) (k : Nat × Nat) (v x : Nat),
    x ∈ ptValues (dictInsertP pt k v) → x = v ∨ x ∈ ptValues pt := by
  intro pt
  induction pt with
  | nil => intro k v x h; simpa [dictInsertP, ptValues] using h
  | cons e rest ih =>
    intro k v x h
    by_cases he : e.1 = k
    · simp only [dictInsertP, if_pos he, ptValues, List.map_cons, List.mem_cons] at h ⊢
      tauto
    · simp only [dictInsertP, if_neg he, ptValues, List.map_cons, List.mem_cons] at h ⊢
      rcases h with h | h
      · tauto
      · rcases ih k v x h with h2 | h2
        · exact Or.inl h2
        · exact Or.inr (Or.inr h2)

theorem dictInsertP_values_nodup : ∀ (pt : List ((Nat × Nat) × Nat)) (k : Nat × Nat) (v : Nat),
    (ptValues pt).Nodup → v ∉ ptValues pt → (ptValues (dictInsertP pt k v)).Nodup := by
  intro pt
  induction pt with
  | nil => intro k v _ _; simp [dictInsertP, ptValues]
  | cons e rest ih =>
    intro k v hnd hv
    simp only [ptValues, List.map_cons, List.nodup_cons] at hnd
    simp only [ptValues, List.map_cons, List.mem_cons, not_or] at hv
    by_cases he : e.1 = k
    · simp only [dictInsertP, if_pos he, ptValues, List.map_cons, List.nodup_cons]
      exact ⟨fun hmem => hv.2 hmem, hnd.2⟩
    · simp only [dictInsertP, if_neg he, ptValues, List.map_cons, List.nodup_cons]
      constructor
      · intro hmem
        rcases dictInsertP_values_sub rest k v e.2 hmem with h2 | h2
        · exact hv.1 h2.symm
        · exact hnd.1 h2
      · exact ih k v hnd.2 hv.2

theorem writesP_values_nodup : ∀ (pairs : List (Nat × Nat)) (pt : List ((Nat × Nat) × Nat)) (pid : Nat),
    (ptValues pt).Nodup → (pairs.map (·.2)).Nodup →
    (∀ f ∈ pairs.map (·.2), f ∉ ptValues pt) →
    (ptValues (writesP pid pt pairs)).Nodup := by
  intro pairs
  induction pairs with
  | nil => intro pt pid h _ _; simpa [writesP] using h
  | cons pr rest ih =>
    intro pt pid hnd hpnd hfresh
    simp only [List.map_cons, List.nodup_cons] at hpnd
    rw [writesP]
    apply ih
    · exact dictInsertP_values_nodup pt (pid, pr.1) pr.2 hnd
        (hfresh pr.2 (by simp))
    · exact hpnd.2
    · intro f hf hmem
      rcases dictInsertP_values_sub pt (pid, pr.1) pr.2 f hmem with h2 | h2
      · exact hpnd.1 (h2 ▸ hf)
      · exact hfresh f (by simp [hf]) h2

theorem freeFrames_nodup (st : Paging) : (freeFrames st).Nodup :=
  (List.nodup_range st.frames).filter _

theorem freeFrames_not_value (st : Paging) :
    ∀ f ∈ freeFrames st, f ∉ ptValues st.page_table := by
  intro f hf
  simp only [freeFrames, filterFree, List.mem_filter, decide_eq_true_eq] at hf
  exact hf.2

theorem paging_alloc_values_nodup (st : Paging) (pid psz : Nat) :
    (ptValues st.page_table).Nodup → (ptValues (st.allocate pid psz).2.page_table).Nodup := by
  intro hnd
  rw [paging_allocate_eq]
  by_cases h : (freeFrames st).length < (psz + st.page_size - 1) / st.page_size
  · rw [if_pos h]
    exact hnd
  · rw [if_neg h]
    have hlen : ((freeFrames st).take ((psz + st.page_size - 1) / st.page_size)).length
        ≤ (List.range ((psz + st.page_size - 1) / st.page_size)).length := by
      simp [Nat.min_le_left]
    have hsnd : (((List.range ((psz + st.page_size - 1) / st.page_size)).zip
        ((freeFrames st).take ((psz + st.page_size - 1) / st.page_size))).map (·.2))
        = (freeFrames st).take ((psz + st.page_size - 1) / st.page_size) :=
      List.map_snd_zip _ _ hlen
    apply writesP_values_nodup
    · exact hnd
    · rw [hsnd]
      exact List.Nodup.sublist (List.take_sublist _ _) (freeFrames_nodup st)
    · intro f hf
      rw [hsnd] at hf
      exact freeFrames_not_value st f (List.mem_of_mem_take hf)

theorem paging_dealloc_values_nodup (st : Paging) (pid : Nat) :
    (ptValues st.page_table).Nodup → (ptValues (st.deallocate pid).page_table).Nodup := by
  intro hnd
  unfold Paging.deallocate
  exact List.Nodup.sublist ((List.filter_sublist _).map _) hnd

theorem runP_values_nodup : ∀ (ops : List POp) (st : Paging),
    (ptValues st.page_table).Nodup → (ptValues (runP ops st).page_table).Nodup := by
  intro ops
  induction ops with
  | nil => intro st h; exact h
  | cons op rest ih =>
    intro st h
    cases op with
    | alloc pid sz => exact ih _ (paging_alloc_values_nodup st pid sz h)
    | dealloc pid => exact ih _ (paging_dealloc_values_nodup st pid h)

/-! ## Lemmas: the left-to-right window scan of FixedSizedPartitioning -/

theorem scanWin_some (parts : List (Option Nat)) (needed : Nat) : ∀ (fuel i j : Nat),
    scanWin parts needed i fuel = some j →
    i ≤ j ∧ j < i + fuel ∧ windowFree parts j needed = true ∧
      ∀ k, i ≤ k → k < j → windowFree parts k needed = false := by
  intro fuel
  induction fuel with
  | zero => intro i j h; simp [scanWin] at h
  | succ m ih =>
    intro i j h
    rw [scanWin] at h
    by_cases hw : windowFree parts i needed = true
    · rw [if_pos hw] at h
      cases h
      exact ⟨Nat.le_refl _, by omega, hw, fun k hk1 hk2 => absurd (Nat.lt_of_le_of_lt hk1 hk2)
        (Nat.lt_irrefl _)⟩
    · rw [if_neg hw] at h
      obtain ⟨h1, h2, h3, h4⟩ := ih (i + 1) j h
      refine ⟨by omega, by omega, h3, ?_⟩
      intro k hk1 hk2
      rcases Nat.eq_or_lt_of_le hk1 with heq | hlt
      · simpa [← heq] using hw
      · exact h4 k hlt hk2

theorem scanWin_none (parts : List (Option Nat)) (needed : Nat) : ∀ (fuel i : Nat),
    scanWin parts needed i fuel = none →
    ∀ k, i ≤ k → k < i + fuel → windowFree parts k needed = false := by
  intro fuel
  induction fuel with
  | zero => intro i _ k hk1 hk2; omega
  | succ m ih =>
    intro i h k hk1 hk2
    rw [scanWin] at h
    by_cases hw : windowFree parts i needed = true
    · rw [if_pos hw] at h; cases h
    · rw [if_neg hw] at h
      rcases Nat.eq_or_lt_of_le hk1 with heq | hlt
      · simpa [← heq] using hw
      · exact ih (i + 1) h k hlt (by omega)

/-! ## Lemmas: the best_fit scan of UnequalSizedPartitioning -/

theorem drop_eq_cons_getElem {α : Type} (l : List α) (i : Nat) (x : α) (xs : List α) :
    l.drop i = x :: xs → l[i]? = some x ∧ l.drop (i + 1) = xs := by
  intro h
  constructor
  · have h0 := List.getElem?_drop l i 0
    rw [h] at h0
    simpa using h0.symm
  · have h1 := List.drop_drop 1 i l
    rw [h] at h1
    simpa using h1.symm

theorem getElem?_some_lt {α : Type} (l : List α) (i : Nat) (x : α) :
    l[i]? = some x → i < l.length := by
  intro h
  by_contra hge
  rw [List.getElem?_eq_none (by omega)] at h
  cases h

theorem getElem?_ge_none {α : Type} (l : List α) (i : Nat) :
    l.length ≤ i → l[i]? = none := fun h => List.getElem?_eq_none h

theorem scanPartGo_stop (cmp : Nat → Nat → Bool) (ps : List Nat) (al : List (Option Nat))
    (size i : Nat) (best : Option (Nat × Nat)) (h : ps = [] ∨ al = []) :
    scanPartGo cmp ps al size i best = best := by
  rcases h with rfl | rfl
  · cases al <;> rfl
  · cases ps <;> rfl

theorem bestScanGo_spec (st : UnequalSizedPartitioning) (size : Nat) :
    ∀ (ps : List Nat) (al : List (Option Nat)) (i : Nat) (best : Option (Nat × Nat)),
    st.partitions.drop i = ps → st.allocated.drop i = al →
    (best = none → ∀ j, j < i → ¬ Ucand st size j) →
    (∀ bi bp, best = some (bi, bp) → bi < i ∧ st.partitions[bi]? = some bp ∧ Ucand st size bi ∧
       ∀ j, j < i → Ucand st size j → bp ≤ partSizeD st j ∧ (partSizeD st j = bp → bi ≤ j)) →
    (scanPartGo (fun p b => p < b) ps al size i best = none → ∀ j, ¬ Ucand st size j) ∧
    (∀ bi bp, scanPartGo (fun p b => p < b) ps al size i best = some (bi, bp) →
       Ucand st size bi ∧ st.partitions[bi]? = some bp ∧
       ∀ j, Ucand st size j → bp ≤ partSizeD st j ∧ (partSizeD st j = bp → bi ≤ j)) := by
  intro ps
  induction ps with
  | nil =>
    intro al i best hdp _ hnone hsome
    have hlen : st.partitions.length ≤ i := by
      have := congrArg List.length hdp
      simp [List.length_drop] at this
      omega
    have hno : ∀ j, i ≤ j → ¬ Ucand st size j := by
      intro j hj hc
      exact absurd hc.1 (by omega)
    rw [scanPartGo_stop _ _ _ _ _ _ (Or.inl rfl)]
    constructor
    · intro hres j hc
      rcases Nat.lt_or_ge j i with hj | hj
      · exact hnone hres j hj hc
      · exact hno j hj hc
    · intro bi bp hres
      obtain ⟨hbi, hget, hcand, hmin⟩ := hsome bi bp hres
      refine ⟨hcand, hget, ?_⟩
      intro j hc
      rcases Nat.lt_or_ge j i with hj | hj
      · exact hmin j hj hc
      · exact absurd hc (hno j hj)
  | cons p ps' ih =>
    intro al i best hdp hda hnone hsome
    cases al with
    | nil =>
      have hlen : st.allocated.length ≤ i := by
        have := congrArg List.length hda
        simp [List.length_drop] at this
        omega
      have hno : ∀ j, i ≤ j → ¬ Ucand st size j := by
        intro j hj hc
        have h2 := hc.2.1
        rw [getElem?_ge_none st.allocated j (by omega)] at h2
        cases h2
      rw [scanPartGo_stop _ _ _ _ _ _ (Or.inr rfl)]
      constructor
      · intro hres j hc
        rcases Nat.lt_or_ge j i with hj | hj
        · exact hnone hres j hj hc
        · exact hno j hj hc
      · intro bi bp hres
        obtain ⟨hbi, hget, hcand, hmin⟩ := hsome bi bp hres
        refine ⟨hcand, hget, ?_⟩
        intro j hc
        rcases Nat.lt_or_ge j i with hj | hj
        · exact hmin j hj hc
        · exact absurd hc (hno j hj)
    | cons a al' =>
      obtain ⟨hpi, hdp'⟩ := drop_eq_cons_getElem st.partitions i p ps' hdp
      obtain ⟨hai, hda'⟩ := drop_eq_cons_getElem st.allocated i a al' hda
      have hplen : i < st.partitions.length := getElem?_some_lt _ _ _ hpi
      have hpsize : partSizeD st i = p := by simp [partSizeD, hpi]
      rw [scanPartGo]
      by_cases hc : a = none ∧ size ≤ p ∧ betterThan (fun p b => p < b) best p = true
      · rw [if_pos hc]
        have hcand_i : Ucand st size i := by
          refine ⟨hplen, ?_, ?_⟩
          · rw [hai, hc.1]
          · rw [hpsize]; exact hc.2.1
        apply ih al' (i + 1) (some (i, p)) hdp' hda'
        · intro h; cases h
        · intro bi bp h
          injection h with h
          injection h with h1 h2
          subst h1; subst h2
          refine ⟨by omega, hpi, hcand_i, ?_⟩
          intro j hj hcj
          rcases Nat.lt_or_ge j i with hji | hji
          · cases best with
            | none => exact absurd hcj (hnone rfl j hji)
            | some b =>
              obtain ⟨hbi, hbget, hbcand, hbmin⟩ := hsome b.1 b.2 rfl
              have hcmp : p < b.2 := by simpa [betterThan] using hc.2.2
              have hold := hbmin j hji hcj
              constructor
              · omega
              · intro htie; omega
          · have hji' : j = i := by omega
            subst hji'
            rw [hpsize]
            exact ⟨Nat.le_refl _, fun _ => Nat.le_refl _⟩
      · rw [if_neg hc]
        apply ih al' (i + 1) best hdp' hda'
        · intro hb j hj hcj
          rcases Nat.lt_or_ge j i with hji | hji
          · exact hnone hb j hji hcj
          · have hji' : j = i := by omega
            subst hji'
            subst hb
            have ha_none : a = none := by
              have h2 := hcj.2.1
              rw [hai] at h2
              injection h2
            have hsz : size ≤ p := by
              have h2 := hcj.2.2
              rwa [hpsize] at h2
            exact hc ⟨ha_none, hsz, by simp [betterThan]⟩
        · intro bi bp hb
          obtain ⟨hbi, hbget, hbcand, hbmin⟩ := hsome bi bp hb
          refine ⟨by omega, hbget, hbcand, ?_⟩
          intro j hj hcj
          rcases Nat.lt_or_ge j i with hji | hji
          · exact hbmin j hji hcj
          · have hji' : j = i := by omega
            subst hji'
            have ha_none : a = none := by
              have h2 := hcj.2.1
              rw [hai] at h2
              injection h2
            have hsz : size ≤ p := by
              have h2 := hcj.2.2
              rwa [hpsize] at h2
            have hncmp : ¬ (p < bp) := by
              intro hlt
              exact hc ⟨ha_none, hsz, by subst hb; simpa [betterThan] using hlt⟩
            rw [hpsize]
            constructor
            · omega
            · intro _; omega

/-! ## Claim C1 -/

/-- C1: for every page table state and every Paging.allocate call with
pagesNeeded = ceil(processSize / page_size), if fewer than pagesNeeded
frames of [0, totalFrames) are unassigned the call returns False and
the page table is exactly the one before the call; otherwise it
returns True and assigns the first pagesNeeded free frames, in
ascending frame order, to pages 0..pagesNeeded-1 of pid in the order
discovered. -/
theorem claim_C1_paging_allocate_atomic (st : Paging) (pid psz : Nat) :
    st.allocate pid psz =
      (if (freeFrames st).length < (psz + st.page_size - 1) / st.page_size then (false, st)
       else (true, { st with page_table := (writesP pid st.page_table
         ((List.range ((psz + st.page_size - 1) / st.page_size)).zip
           ((freeFrames st).take ((psz + st.page_size - 1) / st.page_size)))) })) :=
  paging_allocate_eq st pid psz

/-! ## Claim C6 -/

/-- C6: starting from the empty page table, after any sequence of
Paging.allocate and Paging.deallocate calls no frame number is the
value of two page-table entries: the list of frame values has no
duplicate. -/
theorem claim_C6_paging_frames_unique (ms ps : Nat) (ops : List POp) :
    (ptValues (runP ops (Paging.init ms ps)).page_table).Nodup :=
  runP_values_nodup ops _ (by simp [Paging.init, ptValues])

/-! ## Claim C7 -/

/-- C7: with strategy best_fit the unequal allocator selects, among
the free partitions large enough for the request, one of smallest
size, breaking ties by lowest index; if no free partition is large
enough, allocate returns False and changes nothing.  In the concrete
case partitions = [10, 20, 30], allocate(1, 12, best_fit) occupies the
size-20 partition at index 1. -/
theorem claim_C7_unequal_best_fit (st : UnequalSizedPartitioning) (pid size : Nat) :
    (∀ i, st.findPartition size Strategy.best_fit = some i →
       Ucand st size i ∧
       ∀ j, Ucand st size j →
         partSizeD st i ≤ partSizeD st j ∧ (partSizeD st j = partSizeD st i → i ≤ j)) ∧
    ((∀ j, ¬ Ucand st size j) → st.allocate pid size Strategy.best_fit = (false, st)) ∧
    UnequalSizedPartitioning.allocate (UnequalSizedPartitioning.init [10, 20, 30]) 1 12
        Strategy.best_fit =
      (true, ⟨[10, 20, 30], [none, some 1, none]⟩) := by
  have hspec := bestScanGo_spec st size st.partitions st.allocated 0 none rfl rfl
    (fun _ j hj => absurd hj (by omega)) (fun bi bp h => by cases h)
  refine ⟨?_, ?_, by decide⟩
  · intro i hfind
    simp only [UnequalSizedPartitioning.findPartition] at hfind
    cases hscan : scanPartGo (fun p b => p < b) st.partitions st.allocated size 0 none with
    | none => rw [hscan] at hfind; cases hfind
    | some b =>
      rw [hscan] at hfind
      have hfind2 : b.1 = i := by simpa using hfind
      obtain ⟨hcand, hget, hmin⟩ := hspec.2 b.1 b.2 (by rw [hscan])
      subst hfind2
      refine ⟨hcand, ?_⟩
      intro j hcj
      have hm := hmin j hcj
      have hps : partSizeD st b.1 = b.2 := by simp [partSizeD, hget]
      rw [hps]
      exact hm
  · intro hno
    unfold UnequalSizedPartitioning.allocate
    cases hfind : st.findPartition size Strategy.best_fit with
    | none => rfl
    | some i =>
      exfalso
      simp only [UnequalSizedPartitioning.findPartition] at hfind
      cases hscan : scanPartGo (fun p b => p < b) st.partitions st.allocated size 0 none with
      | none => rw [hscan] at hfind; cases hfind
      | some b => exact hno b.1 (hspec.2 b.1 b.2 (by rw [hscan])).1

theorem claim_C7_witness :
    Ucand (UnequalSizedPartitioning.init [10, 20, 30]) 12 1 ∧
    partSizeD (UnequalSizedPartitioning.init [10, 20, 30]) 1 ≤
      partSizeD (UnequalSizedPartitioning.init [10, 20, 30]) 2 ∧
    UnequalSizedPartitioning.allocate (UnequalSizedPartitioning.init [5]) 9 7 Strategy.best_fit =
      (false, UnequalSizedPartitioning.init [5]) := by
  have h := claim_C7_unequal_best_fit (UnequalSizedPartitioning.init [10, 20, 30]) 1 12
  have h2 := claim_C7_unequal_best_fit (UnequalSizedPartitioning.init [5]) 9 7
  obtain ⟨hcand, hmin⟩ := h.1 1 (by decide)
  have hno : ∀ j, ¬ Ucand (UnequalSizedPartitioning.init [5]) 7 j := by
    intro j hc
    obtain ⟨hj, _, hsz⟩ := hc
    have hl1 : (UnequalSizedPartitioning.init [5]).partitions.length = 1 := rfl
    have hj0 : j = 0 := by omega
    subst hj0
    exact absurd hsz (by decide)
  exact ⟨hcand, (hmin 2 (by decide)).1, h2.2.1 hno⟩

/-! ## Claim C8 -/

/-- C8: FixedSizedPartitioning.allocate computes the number of
required partitions as ceil(size / partition_size), scans left to
right, and tags the leftmost window of that many consecutive free
partitions, returning True; when no window exists it returns False
and leaves every partition unchanged.  The concrete 10-partition
scenario allocates (1,15) at 0-1, (2,25) at 2-4, frees process 1,
and then (3,5) reuses partition 0. -/
theorem claim_C8_fixed_allocate (st : FixedSizedPartitioning) (pid size : Nat) :
    (∀ i, scanWin st.partitions ((size + st.partition_size - 1) / st.partition_size) 0
        (st.partitions.length + 1 - (size + st.partition_size - 1) / st.partition_size) = some i →
      (st.allocate pid size).1 = true ∧
      freeWindowAt st.partitions ((size + st.partition_size - 1) / st.partition_size) i ∧
      (∀ j, j < i →
        ¬ freeWindowAt st.partitions ((size + st.partition_size - 1) / st.partition_size) j) ∧
      (st.allocate pid size).2.partitions =
        tagWindow st.partitions i ((size + st.partition_size - 1) / st.partition_size) pid) ∧
    (scanWin st.partitions ((size + st.partition_size - 1) / st.partition_size) 0
        (st.partitions.length + 1 - (size + st.partition_size - 1) / st.partition_size) = none →
      st.allocate pid size = (false, st) ∧
      ∀ i, ¬ freeWindowAt st.partitions ((size + st.partition_size - 1) / st.partition_size) i) ∧
    ((FixedSizedPartitioning.init 100 10).partitions.length = 10 ∧
     ((FixedSizedPartitioning.init 100 10).allocate 1 15).2.partitions =
       [some 1, some 1, none, none, none, none, none, none, none, none] ∧
     (((FixedSizedPartitioning.init 100 10).allocate 1 15).2.allocate 2 25).2.partitions =
       [some 1, some 1, some 2, some 2, some 2, none, none, none, none, none] ∧
     ((((FixedSizedPartitioning.init 100 10).allocate 1 15).2.allocate 2 25).2.deallocate
         1).partitions =
       [none, none, some 2, some 2, some 2, none, none, none, none, none] ∧
     (((((FixedSizedPartitioning.init 100 10).allocate 1 15).2.allocate 2 25).2.deallocate
         1).allocate 3 5).2.partitions =
       [some 3, none, some 2, some 2, some 2, none, none, none, none, none]) := by
  refine ⟨?_, ?_, by decide, by decide, by decide, by decide, by decide⟩
  · intro i hscan
    obtain ⟨h0, hlt, hwin, hmin⟩ := scanWin_some st.partitions _ _ 0 i hscan
    have hall : st.allocate pid size = (true, { st with partitions := (tagWindow
        st.partitions i ((size + st.partition_size - 1) / st.partition_size) pid) }) := by
      unfold FixedSizedPartitioning.allocate
      dsimp only
      rw [hscan]
    refine ⟨by rw [hall], ⟨by omega, hwin⟩, ?_, by rw [hall]⟩
    intro j hj hfw
    have hwf := hmin j (by omega) hj
    rw [hfw.2] at hwf
    cases hwf
  · intro hscan
    constructor
    · unfold FixedSizedPartitioning.allocate
      dsimp only
      rw [hscan]
    · intro i hfw
      have hib : i < st.partitions.length + 1 -
          (size + st.partition_size - 1) / st.partition_size := by
        have := hfw.1
        omega
      have := scanWin_none st.partitions _ _ 0 hscan i (by omega) (by omega)
      rw [hfw.2] at this
      cases this

theorem claim_C8_witness :
    ((FixedSizedPartitioning.init 100 10).allocate 1 15).1 = true ∧
    ((FixedSizedPartitioning.init 100 10).allocate 1 15).2.partitions =
      tagWindow (FixedSizedPartitioning.init 100 10).partitions 0 2 1 ∧
    freeWindowAt (FixedSizedPartitioning.init 100 10).partitions 2 0 ∧
    (FixedSizedPartitioning.init 30 10).allocate 7 40 = (false, FixedSizedPartitioning.init 30 10) := by
  have h := claim_C8_fixed_allocate (FixedSizedPartitioning.init 100 10) 1 15
  have h2 := claim_C8_fixed_allocate (FixedSizedPartitioning.init 30 10) 7 40
  obtain ⟨ht, hfw, _, htag⟩ := h.1 0 (by decide)
  exact ⟨ht, htag, hfw, (h2.2.1 (by decide)).1⟩

/-! ## Lemmas: the buddy merge loop fuel is irrelevant once sufficient -/

theorem deallocGo_fuel (total : Nat) : ∀ (f g : Nat) (fb : List (Nat × List Nat)) (a s : Nat),
    1 ≤ s → total / s < f → total / s < g →
    deallocGo total f fb a s = deallocGo total g fb a s := by
  intro f
  induction f with
  | zero => intro g fb a s _ hf _; exact absurd hf (Nat.not_lt_zero _)
  | succ f ih =>
    intro g fb a s hs hf hg
    cases g with
    | zero => exact absurd hg (Nat.not_lt_zero _)
    | succ g =>
      rw [deallocGo, deallocGo]
      by_cases hle : s ≤ total
      · rw [if_pos hle, if_pos hle]
        by_cases hb : a ^^^ s ∈ dictGetD fb s
        · rw [if_pos hb, if_pos hb]
          have h1 : total / (s * 2) = total / s / 2 := by rw [Nat.div_div_eq_div_mul]
          have h2 : 1 ≤ total / s := (Nat.one_le_div_iff (by omega)).mpr hle
          have h3 : total / s / 2 < total / s := Nat.div_lt_self (by omega) (by omega)
          exact ih g _ _ _ (by omega) (by omega) (by omega)
        · rw [if_neg hb, if_neg hb]
      · rw [if_neg hle, if_neg hle]

/-! ## Claim C2 -/

/-- C2: refuted as stated.  allocate(1, 5) on a size-64 buddy system
rounds to 8 and returns address 0 after splitting 64 into 32, 16, 8,
but deallocate(0, 8), although it merges all the way back up, leaves
the emptied buckets for sizes 8, 16 and 32 in the dict (list.remove
does not delete a key), so the free-block structure is not the
construction state {64: [0]}. -/
theorem claim_C2_counterexample :
    (BuddySystem.allocate (BuddySystem.init 64) 1 5).1 = some 0 ∧
    BuddySystem.deallocate (BuddySystem.allocate (BuddySystem.init 64) 1 5).2 0 8
      ≠ BuddySystem.init 64 ∧
    (BuddySystem.deallocate (BuddySystem.allocate (BuddySystem.init 64) 1 5).2 0 8).free_blocks
      ≠ (BuddySystem.init 64).free_blocks := by decide

/-- C2 amended: allocate(1, 5) rounds to 8 and returns address 0 via
the split chain 64 to 32 to 16 to 8; deallocate(0, 8) merges buddies
all the way back up, and the resulting buckets, once empty buckets are
disregarded, are exactly {64: [0]}; the empty buckets 32, 16, 8 remain
in the dict. -/
theorem claim_C2_amended :
    (BuddySystem.allocate (BuddySystem.init 64) 1 5).1 = some 0 ∧
    (BuddySystem.allocate (BuddySystem.init 64) 1 5).2.free_blocks =
      [(32, [32]), (16, [16]), (8, [8])] ∧
    (BuddySystem.deallocate (BuddySystem.allocate (BuddySystem.init 64) 1 5).2 0 8).free_blocks =
      [(32, []), (16, []), (8, []), (64, [0])] ∧
    ((BuddySystem.deallocate (BuddySystem.allocate (BuddySystem.init 64) 1 5).2 0 8).free_blocks.filter
      (fun e => ! e.2.isEmpty)) = [(64, [0])] := by decide

/-! ## Claim C5 -/

/-- C5: refuted as stated.  deallocate(1, 65) on a size-64 buddy
system rounds 65 up to 128, which exceeds total memory, so the merge
loop never runs: nothing is inserted in any bucket (address 1 appears
nowhere) and the claim that the address always ends up in some free
bucket fails. -/
theorem claim_C5_counterexample :
    BuddySystem.deallocate (BuddySystem.init 64) 1 65 = BuddySystem.init 64 ∧
    ((BuddySystem.deallocate (BuddySystem.init 64) 1 65).free_blocks.all
      (fun e => ! e.2.contains 1)) = true := by decide

/-- C5 amended: deallocate rounds the size up to the next power of two
and enters the merge loop at that size.  While currentSize is at most
total memory: if the buddy (address XOR currentSize) is in the bucket
for currentSize it is removed, address becomes min(address, buddy) and
currentSize doubles; if the buddy is absent, address is filed in the
bucket for currentSize and the loop stops.  When currentSize exceeds
total memory (from the initial rounding or after a merge) the loop
ends without filing anything, so the address ends in a free bucket
only when a buddy-absent stop occurs at some currentSize ≤ total. -/
theorem claim_C5_buddy_deallocate (st : BuddySystem) (address size s : Nat) :
    (st.deallocate address size = st.deallocFrom address (nextPow2 size)) ∧
    (st.size < s → st.deallocFrom address s = st) ∧
    (s ≤ st.size → (address ^^^ s) ∉ dictGetD st.free_blocks s →
      st.deallocFrom address s =
        { st with free_blocks := (bucketAppend st.free_blocks s address) }) ∧
    (1 ≤ s → s ≤ st.size → (address ^^^ s) ∈ dictGetD st.free_blocks s →
      st.deallocFrom address s =
        BuddySystem.deallocFrom
          { st with free_blocks := (bucketRemove st.free_blocks s (address ^^^ s)) }
          (min address (address ^^^ s)) (s * 2)) := by
  refine ⟨rfl, ?_, ?_, ?_⟩
  · intro h
    unfold BuddySystem.deallocFrom
    rw [deallocGo, if_neg (by omega)]
  · intro hle hb
    unfold BuddySystem.deallocFrom
    rw [deallocGo, if_pos hle, if_neg hb]
  · intro hs hle hb
    unfold BuddySystem.deallocFrom
    dsimp only
    rw [deallocGo, if_pos hle, if_pos hb]
    have h1 : st.size / (s * 2) ≤ st.size / 2 := Nat.div_le_div_left (by omega) (by omega)
    have h2 : st.size / 2 < st.size := Nat.div_lt_self (by omega) (by omega)
    congr 1
    apply deallocGo_fuel
    · omega
    · omega
    · omega

theorem claim_C5_witness :
    BuddySystem.deallocFrom (BuddySystem.init 64) 1 128 = BuddySystem.init 64 ∧
    BuddySystem.deallocFrom (BuddySystem.init 64) 0 64 =
      { BuddySystem.init 64 with
        free_blocks := (bucketAppend (BuddySystem.init 64).free_blocks 64 0) } ∧
    BuddySystem.deallocFrom (BuddySystem.mk 64 [(32, [32]), (16, [16]), (8, [8])]) 0 8 =
      BuddySystem.deallocFrom (BuddySystem.mk 64 [(32, [32]), (16, [16]), (8, [])]) 0 16 :=
  ⟨(claim_C5_buddy_deallocate (BuddySystem.init 64) 1 65 128).2.1 (by decide),
   (claim_C5_buddy_deallocate (BuddySystem.init 64) 0 0 64).2.2.1 (by decide) (by decide),
   (claim_C5_buddy_deallocate (BuddySystem.mk 64 [(32, [32]), (16, [16]), (8, [8])]) 0 0 8).2.2.2
     (by decide) (by decide) (by decide)⟩

/-! ## Claim C10 -/

theorem allocGo_none_eq (st : BuddySystem) (size : Nat) : ∀ (keys : List Nat),
    (allocGo st size keys).1 = none → (allocGo st size keys).2 = st := by
  intro keys
  induction keys with
  | nil => intro _; rfl
  | cons current rest ih =>
    intro h
    cases hget : dictGet st.free_blocks current with
    | none =>
      simp only [allocGo, hget] at h ⊢
      exact ih h
    | some bucket =>
      cases bucket with
      | nil =>
        simp only [allocGo, hget] at h ⊢
        exact ih h
      | cons address others =>
        simp only [allocGo, hget] at h ⊢
        by_cases hle : size ≤ current
        · rw [if_pos hle] at h
          simp at h
        · rw [if_neg hle] at h ⊢
          exact ih h

/-- C10: for the unequal, dynamic and buddy engines, a failed allocate
(False for the first two, no address for buddy) leaves the state
exactly as before the call. -/
theorem claim_C10_failed_alloc_atomic :
    (∀ (st : UnequalSizedPartitioning) (pid size : Nat) (strategy : Strategy),
       (st.allocate pid size strategy).1 = false → (st.allocate pid size strategy).2 = st) ∧
    (∀ (st : DynamicMemoryAllocation) (pid size : Nat) (strategy : Strategy),
       (st.allocate pid size strategy).1 = false → (st.allocate pid size strategy).2 = st) ∧
    (∀ (st : BuddySystem) (pid size : Nat),
       (st.allocate pid size).1 = none → (st.allocate pid size).2 = st) := by
  refine ⟨?_, ?_, ?_⟩
  · intro st pid size strategy h
    unfold UnequalSizedPartitioning.allocate at h ⊢
    cases hfind : st.findPartition size strategy with
    | none => simp only [hfind]
    | some i =>
      simp only [hfind] at h
      cases h
  · intro st pid size strategy h
    unfold DynamicMemoryAllocation.allocate at h ⊢
    cases hfind : st.findBlock size strategy with
    | none => simp only [hfind]
    | some index =>
      simp only [hfind] at h ⊢
      cases hget : st.memory[index]? with
      | none => simp only [hget]
      | some b =>
        simp only [hget] at h
        cases h
  · intro st pid size h
    unfold BuddySystem.allocate at h ⊢
    exact allocGo_none_eq st _ _ h

theorem claim_C10_witness :
    (UnequalSizedPartitioning.allocate (UnequalSizedPartitioning.init [5]) 1 7
      Strategy.first_fit).2 = UnequalSizedPartitioning.init [5] ∧
    (DynamicMemoryAllocation.allocate (DynamicMemoryAllocation.init 10) 1 20
      Strategy.first_fit).2 = DynamicMemoryAllocation.init 10 ∧
    (BuddySystem.allocate (BuddySystem.init 4) 1 8).2 = BuddySystem.init 4 :=
  ⟨claim_C10_failed_alloc_atomic.1 (UnequalSizedPartitioning.init [5]) 1 7 Strategy.first_fit
     (by decide),
   claim_C10_failed_alloc_atomic.2.1 (DynamicMemoryAllocation.init 10) 1 20 Strategy.first_fit
     (by decide),
   claim_C10_failed_alloc_atomic.2.2 (BuddySystem.init 4) 1 8 (by decide)⟩

/-! ## Lemmas: tiling segments and sorting of block lists -/

theorem Seg_append : ∀ (l1 l2 : List Block) (a c : Nat),
    Seg a c (l1 ++ l2) ↔ ∃ m, Seg a m l1 ∧ Seg m c l2 := by
  intro l1
  induction l1 with
  | nil =>
    intro l2 a c
    constructor
    · intro h; exact ⟨a, rfl, h⟩
    · rintro ⟨m, hm, h2⟩
      cases hm
      exact h2
  | cons b l1 ih =>
    intro l2 a c
    constructor
    · rintro ⟨hst, hpos, hrest⟩
      obtain ⟨m, hm, h2⟩ := (ih l2 (a + b.size) c).mp hrest
      exact ⟨m, ⟨hst, hpos, hm⟩, h2⟩
    · rintro ⟨m, ⟨hst, hpos, hm⟩, h2⟩
      exact ⟨hst, hpos, (ih l2 (a + b.size) c).mpr ⟨m, hm, h2⟩⟩

theorem Seg_starts_ge : ∀ (l : List Block) (a c : Nat), Seg a c l → ∀ b ∈ l, a ≤ b.start := by
  intro l
  induction l with
  | nil => intro a c _ b hb; cases hb
  | cons x l ih =>
    intro a c h b hb
    obtain ⟨hst, hpos, hrest⟩ := h
    rcases List.mem_cons.mp hb with rfl | hb
    · omega
    · have := ih (a + x.size) c hrest b hb
      omega

theorem Seg_sortedLT : ∀ (l : List Block) (a c : Nat), Seg a c l → l.Pairwise blockLT := by
  intro l
  induction l with
  | nil => intro a c _; exact List.Pairwise.nil
  | cons x l ih =>
    intro a c h
    obtain ⟨hst, hpos, hrest⟩ := h
    refine List.Pairwise.cons ?_ (ih (a + x.size) c hrest)
    intro b hb
    have := Seg_starts_ge l (a + x.size) c hrest b hb
    unfold blockLT
    omega

theorem Seg_sortedLE (l : List Block) (a c : Nat) (h : Seg a c l) : List.Sorted blockLE l :=
  (Seg_sortedLT l a c h).imp (fun hlt => Or.inl hlt)

theorem Seg_tilesFrom : ∀ (l : List Block) (a c : Nat), Seg a c l → TilesFrom c a l := by
  intro l
  induction l with
  | nil => intro a c h; exact h
  | cons x l ih =>
    intro a c h
    exact ⟨h.1, ih _ _ h.2.2⟩

theorem sortBlocks_sorted (l : List Block) : List.Sorted blockLE (sortBlocks l) :=
  List.sorted_insertionSort blockLE l

theorem sortBlocks_perm (l : List Block) : (sortBlocks l).Perm l :=
  List.perm_insertionSort blockLE l

theorem sortBlocks_of_sorted {l : List Block} (h : List.Sorted blockLE l) : sortBlocks l = l :=
  h.insertionSort_eq

theorem sorted_le_ne_lt {l : List Block} (hle : List.Sorted blockLE l)
    (hne : l.Pairwise (fun b c => b.start ≠ c.start)) : l.Pairwise blockLT := by
  have := List.Pairwise.and hle hne
  refine this.imp ?_
  rintro a b ⟨hab, hne2⟩
  rcases hab with h | ⟨h, _⟩
  · exact h
  · exact absurd h hne2

/-- A permutation of a strictly start-sorted list sorts back to it:
this is what lets the modelled list sort stand in for Python sorting
of distinct-start block tuples. -/
theorem sortBlocks_eq_of_perm {l m : List Block} (hp : l.Perm m)
    (hm : m.Pairwise blockLT) : sortBlocks l = m := by
  have hperm : (sortBlocks l).Perm m := (sortBlocks_perm l).trans hp
  have hne_m : m.Pairwise (fun b c => b.start ≠ c.start) :=
    hm.imp (fun h => Nat.ne_of_lt h)
  have hne : (sortBlocks l).Pairwise (fun b c => b.start ≠ c.start) :=
    (hperm.pairwise_iff (fun h => fun he => h he.symm)).mpr hne_m
  exact List.eq_of_perm_of_sorted hperm (sorted_le_ne_lt (sortBlocks_sorted l) hne) hm

/-! ## Lemmas: the free-block search of the dynamic engine -/

theorem firstFitB_cand : ∀ (l : List Block) (size i j : Nat), firstFitB l size i = some j →
    ∃ k b, l[k]? = some b ∧ j = i + k ∧ b.pid = none ∧ size ≤ b.size := by
  intro l
  induction l with
  | nil => intro size i j h; cases h
  | cons b l ih =>
    intro size i j h
    rw [firstFitB] at h
    by_cases hc : b.pid = none ∧ size ≤ b.size
    · rw [if_pos hc] at h
      injection h with h
      exact ⟨0, b, by simp, by omega, hc⟩
    · rw [if_neg hc] at h
      obtain ⟨k, x, hget, hj, hx⟩ := ih size (i + 1) j h
      exact ⟨k + 1, x, by simpa using hget, by omega, hx⟩

theorem scanBlockGo_cand (mem : List Block) (size : Nat) (cmp : Nat → Nat → Bool) :
    ∀ (l : List Block) (i : Nat) (best : Option (Nat × Nat)),
    (∀ bi bs, best = some (bi, bs) → ∃ b, mem[bi]? = some b ∧ b.pid = none ∧ size ≤ b.size) →
    (∀ k, l[k]? = mem[i + k]?) →
    ∀ j, scanBlockGo cmp l size i best = some j →
      ∃ b, mem[j]? = some b ∧ b.pid = none ∧ size ≤ b.size := by
  intro l
  induction l with
  | nil =>
    intro i best hbest _ j h
    rw [scanBlockGo] at h
    cases best with
    | none => cases h
    | some bb =>
      simp only [Option.map_some'] at h
      injection h with h
      exact h ▸ hbest bb.1 bb.2 rfl
  | cons b l ih =>
    intro i best hbest hlink j h
    rw [scanBlockGo] at h
    have hb0 : mem[i]? = some b := by
      have := hlink 0
      simpa using this.symm
    have hlink' : ∀ k, l[k]? = mem[(i + 1) + k]? := by
      intro k
      have := hlink (k + 1)
      rw [show i + 1 + k = i + (k + 1) from by omega]
      simpa using this
    by_cases hc : b.pid = none ∧ size ≤ b.size ∧ betterThan cmp best b.size = true
    · rw [if_pos hc] at h
      refine ih (i + 1) (some (i, b.size)) ?_ hlink' j h
      intro bi bs hbb
      injection hbb with hbb
      injection hbb with h1 h2
      subst h1
      exact ⟨b, hb0, hc.1, hc.2.1⟩
    · rw [if_neg hc] at h
      exact ih (i + 1) best hbest hlink' j h

theorem findBlock_cand (st : DynamicMemoryAllocation) (size : Nat) (strat : Strategy) (i : Nat) :
    st.findBlock size strat = some i →
    ∃ b, st.memory[i]? = some b ∧ b.pid = none ∧ size ≤ b.size := by
  intro h
  cases strat with
  | first_fit =>
    obtain ⟨k, b, hget, hik, hb⟩ := firstFitB_cand st.memory size 0 i h
    exact ⟨b, by rw [hik]; simpa using hget, hb⟩
  | best_fit =>
    exact scanBlockGo_cand st.memory size _ st.memory 0 none (fun _ _ hb => by cases hb)
      (fun k => by simp) i h
  | worst_fit =>
    exact scanBlockGo_cand st.memory size _ st.memory 0 none (fun _ _ hb => by cases hb)
      (fun k => by simp) i h

/-! ## Lemmas: the merge sweep of merge_free_blocks -/

theorem RevSeg_toSeg : ∀ (racc : List Block) (x y : Nat), RevSeg x y racc → Seg x y racc.reverse := by
  intro racc
  induction racc with
  | nil => intro x y h; exact h
  | cons c racc ih =>
    intro x y h
    obtain ⟨hcy, hpos, hrest⟩ := h
    rw [List.reverse_cons]
    refine (Seg_append _ _ _ _).mpr ⟨c.start, ih x c.start hrest, ?_⟩
    exact ⟨rfl, hpos, hcy⟩

theorem mergeGo_seg : ∀ (l racc : List Block) (a c : Nat),
    RevSeg 0 a racc → Seg a c l → Seg 0 c (mergeGo racc l) := by
  intro l
  induction l with
  | nil =>
    intro racc a c hr hs
    have hac : a = c := hs
    subst hac
    rw [mergeGo]
    exact RevSeg_toSeg racc 0 a hr
  | cons b l ih =>
    intro racc a c hr hs
    obtain ⟨hst, hpos, hrest⟩ := hs
    cases racc with
    | nil =>
      have h0 : (0 : Nat) = a := hr
      rw [mergeGo]
      exact ih [b] (a + b.size) c ⟨(show b.start + b.size = a + b.size by omega), hpos,
        (show (0 : Nat) = b.start by omega)⟩ hrest
    | cons hd racc' =>
      obtain ⟨hhd, hhpos, hracc⟩ := hr
      rw [mergeGo]
      by_cases hc : hd.pid = none ∧ b.pid = none
      · rw [if_pos hc]
        exact ih _ (a + b.size) c ⟨(show hd.start + (hd.size + b.size) = a + b.size by omega),
          (show 0 < hd.size + b.size by omega), hracc⟩ hrest
      · rw [if_neg hc]
        exact ih _ (a + b.size) c ⟨(show b.start + b.size = a + b.size by omega), hpos,
          (show hd.start + hd.size = b.start by omega), hhpos, hracc⟩ hrest

theorem notBothFree_symm {a b : Block} (h : notBothFree a b) : notBothFree b a :=
  fun hx => h ⟨hx.2, hx.1⟩

theorem chain'_reverse_of {racc : List Block} (h : List.Chain' notBothFree racc) :
    List.Chain' notBothFree racc.reverse := by
  rw [List.chain'_reverse]
  exact h.imp (fun _ _ hx => notBothFree_symm hx)

theorem mergeGo_chain : ∀ (l racc : List Block), List.Chain' notBothFree racc →
    List.Chain' notBothFree (mergeGo racc l) := by
  intro l
  induction l with
  | nil =>
    intro racc h
    cases racc with
    | nil => exact List.chain'_nil
    | cons x r => exact chain'_reverse_of h
  | cons b l ih =>
    intro racc h
    cases racc with
    | nil => exact ih [b] (List.chain'_singleton b)
    | cons hd racc' =>
      rw [mergeGo]
      by_cases hc : hd.pid = none ∧ b.pid = none
      · rw [if_pos hc]
        refine ih _ ?_
        cases racc' with
        | nil => exact List.chain'_singleton _
        | cons x r =>
          rw [List.chain'_cons] at h ⊢
          refine ⟨?_, h.2⟩
          intro hx
          exact h.1 ⟨hc.1, hx.2⟩
      · rw [if_neg hc]
        refine ih _ ?_
        rw [List.chain'_cons]
        exact ⟨fun hx => hc ⟨hx.2, hx.1⟩, h⟩

theorem mergeGo_id : ∀ (l racc : List Block), List.Chain' notBothFree l →
    (∀ x, racc.head? = some x → ∀ y, l.head? = some y → notBothFree x y) →
    mergeGo racc l = racc.reverse ++ l := by
  intro l
  induction l with
  | nil =>
    intro racc _ _
    cases racc with
    | nil => rfl
    | cons x r => simp [mergeGo]
  | cons b l ih =>
    intro racc hchain hbd
    cases racc with
    | nil =>
      rw [mergeGo, ih [b] hchain.tail ?_]
      · simp
      · intro x hx y hy
        injection hx with hx
        subst hx
        rw [List.chain'_cons'] at hchain
        exact hchain.1 y hy
    | cons hd racc' =>
      rw [mergeGo, if_neg (hbd hd rfl b rfl)]
      rw [ih (b :: hd :: racc') hchain.tail ?_]
      · simp
      · intro x hx y hy
        injection hx with hx
        subst hx
        rw [List.chain'_cons'] at hchain
        exact hchain.1 y hy

theorem sizeSum_cons (b : Block) (l : List Block) : sizeSum (b :: l) = b.size + sizeSum l := by
  simp [sizeSum]

theorem sizeSum_reverse (l : List Block) : sizeSum l.reverse = sizeSum l := by
  simp [sizeSum, List.map_reverse, List.sum_reverse]

theorem mergeGo_sum : ∀ (l racc : List Block),
    sizeSum (mergeGo racc l) = sizeSum racc + sizeSum l := by
  intro l
  induction l with
  | nil =>
    intro racc
    rw [mergeGo, sizeSum_reverse]
    simp [sizeSum]
  | cons b l ih =>
    intro racc
    cases racc with
    | nil =>
      rw [mergeGo, ih [b]]
      simp [sizeSum_cons, sizeSum]
    | cons hd racc' =>
      rw [mergeGo]
      by_cases hc : hd.pid = none ∧ b.pid = none
      · rw [if_pos hc, ih]
        simp [sizeSum_cons]
        omega
      · rw [if_neg hc, ih]
        simp [sizeSum_cons]
        omega

theorem mergeGo_pid (P : Block → Prop) (hP : ∀ s z, P ⟨s, z, none⟩) :
    ∀ (l racc : List Block), (∀ x ∈ racc, P x) → (∀ x ∈ l, P x) →
    ∀ b ∈ mergeGo racc l, P b := by
  intro l
  induction l with
  | nil =>
    intro racc hr _ b hb
    cases racc with
    | nil => cases hb
    | cons x r => exact hr b (List.mem_reverse.mp hb)
  | cons x l ih =>
    intro racc hr hl b hb
    cases racc with
    | nil =>
      refine ih [x] ?_ (fun y hy => hl y (List.mem_cons_of_mem _ hy)) b hb
      intro y hy
      rcases List.mem_singleton.mp hy with rfl
      exact hl y (List.mem_cons_self _ _)
    | cons hd racc' =>
      rw [mergeGo] at hb
      by_cases hc : hd.pid = none ∧ x.pid = none
      · rw [if_pos hc] at hb
        refine ih _ ?_ (fun y hy => hl y (List.mem_cons_of_mem _ hy)) b hb
        intro y hy
        rcases List.mem_cons.mp hy with rfl | hy
        · exact hP _ _
        · exact hr y (List.mem_cons_of_mem _ hy)
      · rw [if_neg hc] at hb
        refine ih _ ?_ (fun y hy => hl y (List.mem_cons_of_mem _ hy)) b hb
        intro y hy
        rcases List.mem_cons.mp hy with rfl | hy
        · exact hl y (List.mem_cons_self _ _)
        · exact hr y hy

/-! ## Lemmas: the dynamic allocator preserves the tiling invariant -/

theorem alloc_some_result (st : DynamicMemoryAllocation) (pid size : Nat) (strat : Strategy)
    (index : Nat) (b : Block) (hfind : st.findBlock size strat = some index)
    (hget : st.memory[index]? = some b) :
    st.allocate pid size strat = (true, { st with memory := (sortBlocks
      ((if b.size - size = 0
        then (st.memory.set index ⟨b.start + size, b.size - size, none⟩).eraseIdx index
        else st.memory.set index ⟨b.start + size, b.size - size, none⟩) ++
        [⟨b.start, size, some pid⟩])) }) := by
  unfold DynamicMemoryAllocation.allocate
  simp only [hfind, hget]

theorem alloc_msize (st : DynamicMemoryAllocation) (pid size : Nat) (strat : Strategy) :
    (st.allocate pid size strat).2.memory_size = st.memory_size := by
  unfold DynamicMemoryAllocation.allocate
  cases hfind : st.findBlock size strat with
  | none => rfl
  | some index =>
    simp only [hfind]
    cases hget : st.memory[index]? with
    | none => rfl
    | some b => simp only [hget]

theorem findBlock_zero_none (st : DynamicMemoryAllocation) (size : Nat) (strat : Strategy)
    (hmem : st.memory = [⟨0, 0, none⟩]) (hsz : 0 < size) :
    st.findBlock size strat = none := by
  have h0 : ¬ ((⟨0, 0, none⟩ : Block).pid = none ∧ size ≤ (⟨0, 0, none⟩ : Block).size) := by
    rintro ⟨_, hle⟩
    simp only at hle
    omega
  have h1 : ¬ ((⟨0, 0, none⟩ : Block).pid = none ∧ size ≤ (⟨0, 0, none⟩ : Block).size ∧
      betterThan (fun v b => v < b) none (⟨0, 0, none⟩ : Block).size = true) := by
    rintro ⟨_, hle, _⟩
    simp only at hle
    omega
  have h2 : ¬ ((⟨0, 0, none⟩ : Block).pid = none ∧ size ≤ (⟨0, 0, none⟩ : Block).size ∧
      betterThan (fun v b => b < v) none (⟨0, 0, none⟩ : Block).size = true) := by
    rintro ⟨_, hle, _⟩
    simp only at hle
    omega
  cases strat with
  | first_fit =>
    simp only [DynamicMemoryAllocation.findBlock, hmem]
    rw [firstFitB, if_neg h0]
    rfl
  | best_fit =>
    simp only [DynamicMemoryAllocation.findBlock, hmem]
    rw [scanBlockGo, if_neg h1]
    rfl
  | worst_fit =>
    simp only [DynamicMemoryAllocation.findBlock, hmem]
    rw [scanBlockGo, if_neg h2]
    rfl

theorem notFree_right (x : Block) (s z p : Nat) : notBothFree x ⟨s, z, some p⟩ :=
  fun hx => Option.noConfusion hx.2

theorem alloc_inv (st : DynamicMemoryAllocation) (pid size : Nat) (strat : Strategy)
    (hsz : 0 < size) (hinv : DynInv st) : DynInv (st.allocate pid size strat).2 := by
  rcases hinv with ⟨hms, hseg, hchain⟩ | ⟨hms, hmem⟩
  · cases hfind : st.findBlock size strat with
    | none =>
      have hres : st.allocate pid size strat = (false, st) := by
        unfold DynamicMemoryAllocation.allocate
        simp only [hfind]
      rw [hres]
      exact Or.inl ⟨hms, hseg, hchain⟩
    | some index =>
      obtain ⟨b, hget, hbfree, hble⟩ := findBlock_cand st size strat index hfind
      have hidx : index < st.memory.length := getElem?_some_lt _ _ _ hget
      have hbidx : st.memory[index] = b := by
        have h2 := List.getElem?_eq_getElem hidx
        rw [hget] at h2
        injection h2 with h2
        exact h2.symm
      have hsplit : st.memory = st.memory.take index ++ b :: st.memory.drop (index + 1) := by
        conv_lhs => rw [← List.take_append_drop index st.memory]
        rw [← List.getElem_cons_drop st.memory index hidx, hbidx]
      have hseg2 : Seg 0 st.memory_size
          (st.memory.take index ++ b :: st.memory.drop (index + 1)) := by
        rw [← hsplit]; exact hseg
      obtain ⟨mid, hpre, hmidseg⟩ := (Seg_append _ _ _ _).mp hseg2
      obtain ⟨hbst, hbpos, hsufseg⟩ := hmidseg
      have hch2 : List.Chain' notBothFree
          (st.memory.take index ++ b :: st.memory.drop (index + 1)) := by
        rw [← hsplit]; exact hchain
      rw [List.chain'_append] at hch2
      obtain ⟨hchpre, hchmid, hchbd⟩ := hch2
      have hplen : (st.memory.take index).length = index := by
        rw [List.length_take]; omega
      have hresult := alloc_some_result st pid size strat index b hfind hget
      have hm1 : st.memory.set index ⟨b.start + size, b.size - size, none⟩ =
          st.memory.take index ++ ⟨b.start + size, b.size - size, none⟩ ::
            st.memory.drop (index + 1) :=
        List.set_eq_take_cons_drop _ hidx
      have hsufnotfree : ∀ y ∈ (st.memory.drop (index + 1)).head?, y.pid ≠ none := by
        intro y hy hfree
        rw [List.chain'_cons'] at hchmid
        exact hchmid.1 y hy ⟨hbfree, hfree⟩
      by_cases hrem : b.size - size = 0
      · have hm2 : (st.memory.set index ⟨b.start + size, b.size - size, none⟩).eraseIdx index =
            st.memory.take index ++ st.memory.drop (index + 1) := by
          rw [List.eraseIdx_eq_take_drop_succ, hm1]
          congr 1
          · have h3 := List.take_left (st.memory.take index)
              (⟨b.start + size, b.size - size, none⟩ :: st.memory.drop (index + 1))
            rw [hplen] at h3
            exact h3
          · have h3 : st.memory.take index ++ ⟨b.start + size, b.size - size, none⟩ ::
                st.memory.drop (index + 1) =
                (st.memory.take index ++ [(⟨b.start + size, b.size - size, none⟩ : Block)]) ++
                  st.memory.drop (index + 1) := by
              simp
            rw [h3]
            have h4 := List.drop_left
              (st.memory.take index ++ [(⟨b.start + size, b.size - size, none⟩ : Block)])
              (st.memory.drop (index + 1))
            have h5 : (st.memory.take index ++
                [(⟨b.start + size, b.size - size, none⟩ : Block)]).length = index + 1 := by
              simp [hplen]
            rw [h5] at h4
            exact h4
        have hsegt : Seg 0 st.memory_size (st.memory.take index ++
            (⟨b.start, size, some pid⟩ : Block) :: st.memory.drop (index + 1)) := by
          refine (Seg_append _ _ _ _).mpr ⟨mid, hpre, ?_⟩
          refine ⟨hbst, hsz, ?_⟩
          have he : mid + size = mid + b.size := by omega
          rw [he]
          exact hsufseg
        have hperm : (((st.memory.set index ⟨b.start + size, b.size - size, none⟩).eraseIdx
            index) ++ [(⟨b.start, size, some pid⟩ : Block)]).Perm
            (st.memory.take index ++ (⟨b.start, size, some pid⟩ : Block) ::
              st.memory.drop (index + 1)) := by
          rw [hm2]
          refine (List.perm_append_singleton _ _).trans ?_
          exact List.perm_middle.symm
        have hsort := sortBlocks_eq_of_perm hperm (Seg_sortedLT _ _ _ hsegt)
        have hcht : List.Chain' notBothFree (st.memory.take index ++
            (⟨b.start, size, some pid⟩ : Block) :: st.memory.drop (index + 1)) := by
          rw [List.chain'_append]
          refine ⟨hchpre, ?_, ?_⟩
          · rw [List.chain'_cons']
            exact ⟨fun y _ hx => Option.noConfusion hx.1, hchmid.tail⟩
          · intro x _ y hy
            injection hy with hy
            rw [← hy]
            exact notFree_right x _ _ _
        rw [hresult]
        rw [if_pos hrem]
        refine Or.inl ⟨hms, ?_, ?_⟩
        · show Seg 0 st.memory_size (sortBlocks _)
          rw [hsort]
          exact hsegt
        · show List.Chain' notBothFree (sortBlocks _)
          rw [hsort]
          exact hcht
      · have hrempos : 0 < b.size - size := by omega
        have hsegt : Seg 0 st.memory_size (st.memory.take index ++
            (⟨b.start, size, some pid⟩ : Block) ::
            (⟨b.start + size, b.size - size, none⟩ : Block) ::
            st.memory.drop (index + 1)) := by
          refine (Seg_append _ _ _ _).mpr ⟨mid, hpre, ?_⟩
          refine ⟨hbst, hsz, (show b.start + size = mid + size by omega), hrempos, ?_⟩
          have he : mid + size + (b.size - size) = mid + b.size := by omega
          rw [he]
          exact hsufseg
        have hperm : ((st.memory.set index ⟨b.start + size, b.size - size, none⟩) ++
            [(⟨b.start, size, some pid⟩ : Block)]).Perm
            (st.memory.take index ++ (⟨b.start, size, some pid⟩ : Block) ::
              (⟨b.start + size, b.size - size, none⟩ : Block) ::
              st.memory.drop (index + 1)) := by
          rw [hm1]
          refine (List.perm_append_singleton _ _).trans ?_
          exact List.perm_middle.symm
        have hsort := sortBlocks_eq_of_perm hperm (Seg_sortedLT _ _ _ hsegt)
        have hcht : List.Chain' notBothFree (st.memory.take index ++
            (⟨b.start, size, some pid⟩ : Block) ::
            (⟨b.start + size, b.size - size, none⟩ : Block) ::
            st.memory.drop (index + 1)) := by
          rw [List.chain'_append]
          refine ⟨hchpre, ?_, ?_⟩
          · rw [List.chain'_cons]
            refine ⟨fun hx => Option.noConfusion hx.1, ?_⟩
            rw [List.chain'_cons']
            refine ⟨?_, hchmid.tail⟩
            intro y hy hx
            exact hsufnotfree y hy hx.2
          · intro x _ y hy
            injection hy with hy
            rw [← hy]
            exact notFree_right x _ _ _
        rw [hresult]
        rw [if_neg hrem]
        refine Or.inl ⟨hms, ?_, ?_⟩
        · show Seg 0 st.memory_size (sortBlocks _)
          rw [hsort]
          exact hsegt
        · show List.Chain' notBothFree (sortBlocks _)
          rw [hsort]
          exact hcht
  · have hfind := findBlock_zero_none st size strat hmem hsz
    have hres : st.allocate pid size strat = (false, st) := by
      unfold DynamicMemoryAllocation.allocate
      simp only [hfind]
    rw [hres]
    exact Or.inr ⟨hms, hmem⟩

theorem Seg_relabel (pid : Nat) : ∀ (l : List Block) (a c : Nat), Seg a c l →
    Seg a c (l.map (fun b => if b.pid = some pid then ⟨b.start, b.size, none⟩ else b)) := by
  intro l
  induction l with
  | nil => intro a c h; exact h
  | cons b l ih =>
    intro a c h
    obtain ⟨hst, hpos, hrest⟩ := h
    by_cases hb : b.pid = some pid
    · rw [List.map_cons, if_pos hb]
      exact ⟨hst, hpos, ih _ _ hrest⟩
    · rw [List.map_cons, if_neg hb]
      exact ⟨hst, hpos, ih _ _ hrest⟩

theorem dealloc_inv (st : DynamicMemoryAllocation) (pid : Nat) (hinv : DynInv st) :
    DynInv (st.deallocate pid) := by
  unfold DynamicMemoryAllocation.deallocate DynamicMemoryAllocation.merge_free_blocks
  rcases hinv with ⟨hms, hseg, hchain⟩ | ⟨hms, hmem⟩
  · have hrs : Seg 0 st.memory_size
        (st.memory.map (fun b => if b.pid = some pid then ⟨b.start, b.size, none⟩ else b)) :=
      Seg_relabel pid st.memory _ _ hseg
    have hsorted := sortBlocks_of_sorted (Seg_sortedLE _ _ _ hrs)
    refine Or.inl ⟨hms, ?_, ?_⟩
    · show Seg 0 st.memory_size (mergeGo [] (sortBlocks _))
      rw [hsorted]
      exact mergeGo_seg _ [] 0 st.memory_size rfl hrs
    · show List.Chain' notBothFree (mergeGo [] (sortBlocks _))
      exact mergeGo_chain _ [] List.chain'_nil
  · have hrel : st.memory.map
        (fun b => if b.pid = some pid then ⟨b.start, b.size, none⟩ else b) =
        [⟨0, 0, none⟩] := by
      rw [hmem]
      simp
    refine Or.inr ⟨hms, ?_⟩
    show mergeGo [] (sortBlocks _) = [⟨0, 0, none⟩]
    rw [hrel]
    rfl

theorem init_inv (ms : Nat) : DynInv (DynamicMemoryAllocation.init ms) := by
  rcases Nat.eq_zero_or_pos ms with h | h
  · subst h
    exact Or.inr ⟨rfl, rfl⟩
  · exact Or.inl ⟨h, ⟨rfl, h, Nat.zero_add ms⟩, List.chain'_singleton _⟩

theorem runD_inv : ∀ (ops : List DynOp) (st : DynamicMemoryAllocation), posOps ops = true →
    DynInv st → DynInv (runD ops st) ∧ (runD ops st).memory_size = st.memory_size := by
  intro ops
  induction ops with
  | nil => intro st _ h; exact ⟨h, rfl⟩
  | cons op rest ih =>
    intro st hpos hinv
    cases op with
    | alloc pid size strat =>
      rw [posOps, Bool.and_eq_true, decide_eq_true_eq] at hpos
      obtain ⟨hsz, hrest⟩ := hpos
      obtain ⟨h1, h2⟩ := ih _ hrest (alloc_inv st pid size strat hsz hinv)
      refine ⟨h1, ?_⟩
      show (runD rest (st.allocate pid size strat).2).memory_size = st.memory_size
      rw [h2, alloc_msize]
    | dealloc pid =>
      rw [posOps] at hpos
      obtain ⟨h1, h2⟩ := ih _ hpos (dealloc_inv st pid hinv)
      exact ⟨h1, h2⟩

/-! ## Claim C4 -/

/-- C4: starting from the initial single free block, after every
sequence of allocate calls with positive requested sizes and
deallocate calls, the block list exactly tiles [0, memory_size): the
first block starts at 0, each block starts where the previous one
ends, the sizes sum to memory_size, and the list is sorted by start. -/
theorem claim_C4_dynamic_tiling (ms : Nat) (ops : List DynOp) (hpos : posOps ops = true) :
    TilesFrom ms 0 (runD ops (DynamicMemoryAllocation.init ms)).memory ∧
    (runD ops (DynamicMemoryAllocation.init ms)).memory.Pairwise
      (fun b c => b.start ≤ c.start) := by
  obtain ⟨hinv, hmsize⟩ := runD_inv ops _ hpos (init_inv ms)
  have hmsize2 : (runD ops (DynamicMemoryAllocation.init ms)).memory_size = ms := hmsize
  rcases hinv with ⟨_, hseg, _⟩ | ⟨h0, hmem⟩
  · rw [hmsize2] at hseg
    exact ⟨Seg_tilesFrom _ _ _ hseg,
      (Seg_sortedLT _ _ _ hseg).imp (fun h => Nat.le_of_lt h)⟩
  · have hms0 : ms = 0 := by rw [← hmsize2]; exact h0
    rw [hmem, hms0]
    exact ⟨⟨rfl, rfl⟩, List.pairwise_singleton _ _⟩

theorem claim_C4_witness :
    TilesFrom 100 0 (runD dynOps1 (DynamicMemoryAllocation.init 100)).memory ∧
    (runD dynOps1 (DynamicMemoryAllocation.init 100)).memory.Pairwise
      (fun b c => b.start ≤ c.start) :=
  claim_C4_dynamic_tiling 100 dynOps1 (by decide)

/-! ## Claim C3 -/

/-- C3: deallocate(pid) relabels every block of pid as free and fully
coalesces adjacent free blocks: afterwards no block is owned by pid,
no two adjacent blocks are both free, and the total of the block sizes
is unchanged (so each maximal free run has become one block carrying
the sum of its sizes).  In the concrete 100-unit scenario, after
allocate(1,30), allocate(2,30), allocate(3,40), deallocate(1),
deallocate(2), the list is exactly a single free block (0, 60)
followed by the block of process 3. -/
theorem claim_C3_dynamic_coalescing (st : DynamicMemoryAllocation) (pid : Nat) :
    ((st.deallocate pid).memory.all (fun b => ! (b.pid == some pid))) = true ∧
    List.Chain' notBothFree (st.deallocate pid).memory ∧
    sizeSum (st.deallocate pid).memory = sizeSum st.memory ∧
    (runD dynOps1 (DynamicMemoryAllocation.init 100)).memory =
      [⟨0, 60, none⟩, ⟨60, 40, some 3⟩] ∧
    ((runD dynOps1 (DynamicMemoryAllocation.init 100)).memory.filter
      (fun b => b.pid == none)) = [⟨0, 60, none⟩] := by
  refine ⟨?_, ?_, ?_, by decide, by decide⟩
  · rw [List.all_eq_true]
    intro b hb
    have hb2 : b ∈ mergeGo [] (sortBlocks (st.memory.map
        (fun x => if x.pid = some pid then ⟨x.start, x.size, none⟩ else x))) := hb
    have hnp : b.pid ≠ some pid := by
      refine mergeGo_pid (fun y => y.pid ≠ some pid) (fun s z => by simp) _ []
        (fun y hy => absurd hy (List.not_mem_nil y)) ?_ b hb2
      intro y hy
      have hy2 := (sortBlocks_perm _).mem_iff.mp hy
      rw [List.mem_map] at hy2
      obtain ⟨z, hz, hzy⟩ := hy2
      by_cases hzp : z.pid = some pid
      · rw [if_pos hzp] at hzy
        rw [← hzy]
        simp
      · rw [if_neg hzp] at hzy
        rw [← hzy]
        exact hzp
    rw [Bool.not_eq_true', beq_eq_false_iff_ne]
    exact hnp
  · exact mergeGo_chain _ [] List.chain'_nil
  · show sizeSum (mergeGo [] (sortBlocks _)) = _
    rw [mergeGo_sum]
    have h1 : sizeSum (sortBlocks (st.memory.map
        (fun x => if x.pid = some pid then ⟨x.start, x.size, none⟩ else x))) =
        sizeSum (st.memory.map
        (fun x => if x.pid = some pid then ⟨x.start, x.size, none⟩ else x)) := by
      unfold sizeSum
      exact ((sortBlocks_perm _).map Block.size).sum_eq
    have h2 : sizeSum (st.memory.map
        (fun x => if x.pid = some pid then ⟨x.start, x.size, none⟩ else x)) =
        sizeSum st.memory := by
      unfold sizeSum
      rw [List.map_map]
      congr 1
      apply List.map_congr_left
      intro x _
      by_cases hx : x.pid = some pid <;> simp [hx]
    rw [h1, h2]
    simp [sizeSum]

/-! ## Claim C9 -/

theorem mapClearOpt_id (pid : Nat) : ∀ (l : List (Option Nat)),
    (∀ p ∈ l, p ≠ some pid) → l.map (fun p => if p = some pid then none else p) = l := by
  intro l
  induction l with
  | nil => intro _; rfl
  | cons a l ih =>
    intro h
    rw [List.map_cons, if_neg (h a (List.mem_cons_self _ _)),
      ih (fun p hp => h p (List.mem_cons_of_mem _ hp))]

theorem mapClearBlock_id (pid : Nat) : ∀ (l : List Block),
    (∀ b ∈ l, b.pid ≠ some pid) →
    l.map (fun b => if b.pid = some pid then ⟨b.start, b.size, none⟩ else b) = l := by
  intro l
  induction l with
  | nil => intro _; rfl
  | cons a l ih =>
    intro h
    rw [List.map_cons, if_neg (h a (List.mem_cons_self _ _)),
      ih (fun b hb => h b (List.mem_cons_of_mem _ hb))]

/-- C9: deallocating a process id that owns no partition, no block and
no page-table entry is a silent no-op for the fixed, unequal, paging
and (on reachable states) dynamic engines: the state is returned
unchanged, merge pass included. -/
theorem claim_C9_deallocate_noop :
    (∀ (st : FixedSizedPartitioning) (pid : Nat),
       (st.partitions.all (fun p => ! (p == some pid))) = true → st.deallocate pid = st) ∧
    (∀ (st : UnequalSizedPartitioning) (pid : Nat),
       (st.allocated.all (fun a => ! (a == some pid))) = true → st.deallocate pid = st) ∧
    (∀ (st : Paging) (pid : Nat),
       (st.page_table.all (fun e => ! (e.1.1 == pid))) = true → st.deallocate pid = st) ∧
    (∀ (st : DynamicMemoryAllocation) (pid : Nat), DynReachable st →
       (st.memory.all (fun b => ! (b.pid == some pid))) = true → st.deallocate pid = st) := by
  refine ⟨?_, ?_, ?_, ?_⟩
  · intro st pid h
    rw [List.all_eq_true] at h
    have h2 : ∀ p ∈ st.partitions, p ≠ some pid := by
      intro p hp
      have h3 := h p hp
      rw [Bool.not_eq_true', beq_eq_false_iff_ne] at h3
      exact h3
    unfold FixedSizedPartitioning.deallocate
    rw [mapClearOpt_id pid st.partitions h2]
  · intro st pid h
    rw [List.all_eq_true] at h
    have h2 : ∀ a ∈ st.allocated, a ≠ some pid := by
      intro a ha
      have h3 := h a ha
      rw [Bool.not_eq_true', beq_eq_false_iff_ne] at h3
      exact h3
    unfold UnequalSizedPartitioning.deallocate
    rw [mapClearOpt_id pid st.allocated h2]
  · intro st pid h
    rw [List.all_eq_true] at h
    unfold Paging.deallocate
    rw [List.filter_eq_self.mpr h]
  · intro st pid hreach h
    rw [List.all_eq_true] at h
    have h2 : ∀ b ∈ st.memory, b.pid ≠ some pid := by
      intro b hb
      have h3 := h b hb
      rw [Bool.not_eq_true', beq_eq_false_iff_ne] at h3
      exact h3
    obtain ⟨ms, ops, hpos, heq⟩ := hreach
    have hinv : DynInv st := by
      rw [heq]
      exact (runD_inv ops _ hpos (init_inv ms)).1
    unfold DynamicMemoryAllocation.deallocate DynamicMemoryAllocation.merge_free_blocks
    dsimp only
    rw [mapClearBlock_id pid st.memory h2]
    rcases hinv with ⟨_, hseg, hchain⟩ | ⟨_, hmem⟩
    · rw [sortBlocks_of_sorted (Seg_sortedLE _ _ _ hseg)]
      rw [mergeGo_id st.memory [] hchain (fun x hx => absurd hx (by simp))]
      rw [List.reverse_nil, List.nil_append]
    · have hmerge : mergeGo [] (sortBlocks st.memory) = st.memory := by
        rw [hmem]
        rfl
      rw [hmerge]

theorem claim_C9_witness :
    FixedSizedPartitioning.deallocate (FixedSizedPartitioning.init 30 10) 1 =
      FixedSizedPartitioning.init 30 10 ∧
    UnequalSizedPartitioning.deallocate (UnequalSizedPartitioning.init [10]) 2 =
      UnequalSizedPartitioning.init [10] ∧
    Paging.deallocate (Paging.init 40 10) 3 = Paging.init 40 10 ∧
    DynamicMemoryAllocation.deallocate (runD dynOps1 (DynamicMemoryAllocation.init 100)) 5 =
      runD dynOps1 (DynamicMemoryAllocation.init 100) :=
  ⟨claim_C9_deallocate_noop.1 _ 1 (by decide),
   claim_C9_deallocate_noop.2.1 _ 2 (by decide),
   claim_C9_deallocate_noop.2.2.1 _ 3 (by decide),
   claim_C9_deallocate_noop.2.2.2 _ 5 ⟨100, dynOps1, by decide, rfl⟩ (by decide)⟩
